import Mathlib

/-!
Verification of the configurable FizzBuzz module (`fizzbuzz.py`).

Python strings are modelled as lists of characters (`Str`), Python integers
as `Int`, and fallible functions as `Option`/`Except`.  Python's `%` on a
positive modulus agrees with `Int.emod`, and `float` arithmetic in
`round(..., 1)` and the chart bar length is modelled as exact rational /
integer arithmetic.
-/

abbrev Str := List Char

/-- Decimal digits of a natural number, most significant first, with explicit
fuel so that the definition is structural (kernel-reducible). -/
def natDigitsF : Nat → Nat → Str
  | 0, _ => []
  | fuel + 1, n =>
    if n < 10 then [Char.ofNat (48 + n)]
    else natDigitsF fuel (n / 10) ++ [Char.ofNat (48 + n % 10)]

/-- Decimal digit string of a natural number (Python `str(n)` for `n ≥ 0`). -/
def natDigits (n : Nat) : Str := natDigitsF (n + 1) n

/-- Python `str(n)` for an arbitrary integer. -/
def strInt (n : Int) : Str :=
  if n < 0 then '-' :: natDigits n.natAbs else natDigits n.toNat

/-- Python `str.isdigit` restricted to ASCII: true iff the string is nonempty
and every character is a decimal digit. -/
def pyIsDigit (s : Str) : Bool := !s.isEmpty && s.all Char.isDigit

abbrev Ruleset := List (Int × Str)

/-- The classic default ruleset `[(3, "Fizz"), (5, "Buzz")]`. -/
def defaultRules : Ruleset := [(3, ['F','i','z','z']), (5, ['B','u','z','z'])]

/-- Embedding of `fizzbuzz(n, rules)`: concatenate the labels of all rules
whose divisor divides `n`; if no label matched, fall back to `str(n)`.
`none` models Python's `rules=None` default. -/
def fizzbuzz (n : Int) (rules : Option Ruleset) : Str :=
  let rs := rules.getD defaultRules
  let result := ((rs.filter (fun r => n % r.1 == 0)).map Prod.snd).flatten
  if result.isEmpty then strInt n else result

/-- Python `range(start, end + 1)` as a list of integers. -/
def intRange (s e : Int) : List Int :=
  (List.range (e + 1 - s).toNat).map (fun (k : Nat) => s + (k : Int))

/-- Embedding of `run(start, end, rules)`. -/
def run (s e : Int) (rules : Option Ruleset) : List Str :=
  (intRange s e).map (fun n => fizzbuzz n rules)

/-! Digit-string lemmas. -/

theorem natDigitsF_congr (n : Nat) : ∀ f1 f2, n < f1 → n < f2 →
    natDigitsF f1 n = natDigitsF f2 n := by
  induction n using Nat.strong_induction_on with
  | _ n ih =>
    intro f1 f2 h1 h2
    match f1, f2, h1, h2 with
    | g1 + 1, g2 + 1, _, _ =>
      show natDigitsF (g1 + 1) n = natDigitsF (g2 + 1) n
      unfold natDigitsF
      by_cases h : n < 10
      · simp [h]
      · simp only [h, if_false]
        have hd : n / 10 < n := Nat.div_lt_self (by omega) (by omega)
        rw [ih (n / 10) hd g1 g2 (by omega) (by omega)]

theorem natDigits_eq (n : Nat) : natDigits n =
    if n < 10 then [Char.ofNat (48 + n)]
    else natDigits (n / 10) ++ [Char.ofNat (48 + n % 10)] := by
  show natDigitsF (n + 1) n = _
  unfold natDigitsF
  by_cases h : n < 10
  · simp [h]
  · simp only [h, if_false]
    have hd : n / 10 < n := Nat.div_lt_self (by omega) (by omega)
    rw [natDigitsF_congr (n / 10) n (n / 10 + 1) (by omega) (by omega)]
    rfl

theorem natDigits_ne_nil (n : Nat) : natDigits n ≠ [] := by
  rw [natDigits_eq]
  by_cases h : n < 10 <;> simp [h]

theorem char_ofNat_digit_isDigit (m : Nat) (h : m < 10) :
    (Char.ofNat (48 + m)).isDigit = true := by
  interval_cases m <;> decide

theorem natDigits_all_digit (n : Nat) : ∀ c ∈ natDigits n, c.isDigit = true := by
  induction n using Nat.strong_induction_on with
  | _ n ih =>
    rw [natDigits_eq]
    by_cases h : n < 10
    · simp only [h, if_true, List.mem_singleton]
      rintro c rfl
      exact char_ofNat_digit_isDigit n h
    · simp only [h, if_false, List.mem_append, List.mem_singleton]
      rintro c (hc | rfl)
      · exact ih (n / 10) (Nat.div_lt_self (by omega) (by omega)) c hc
      · exact char_ofNat_digit_isDigit (n % 10) (Nat.mod_lt _ (by omega))

theorem strInt_ne_nil (n : Int) : strInt n ≠ [] := by
  unfold strInt
  by_cases h : n < 0
  · simp [h]
  · simp only [h, if_false]
    exact natDigits_ne_nil _

theorem strInt_chars (n : Int) : ∀ c ∈ strInt n, c.isDigit = true ∨ c = '-' := by
  unfold strInt
  by_cases h : n < 0
  · simp only [h, if_true, List.mem_cons]
    rintro c (rfl | hc)
    · exact Or.inr rfl
    · exact Or.inl (natDigits_all_digit _ c hc)
  · simp only [h, if_false]
    intro c hc
    exact Or.inl (natDigits_all_digit _ c hc)

/-! The Rule Engine on the default ruleset (claim C1). -/

theorem fizzbuzz_default_closed (n : Int) :
    fizzbuzz n none =
      if n % 3 = 0 then
        (if n % 5 = 0 then ['F','i','z','z','B','u','z','z'] else ['F','i','z','z'])
      else
        (if n % 5 = 0 then ['B','u','z','z'] else strInt n) := by
  by_cases h3 : n % 3 = 0 <;> by_cases h5 : n % 5 = 0 <;>
    simp [fizzbuzz, defaultRules, List.filter_cons, beq_iff_eq, h3, h5]

theorem not_infix_strInt_of_upper (w : Str) (c : Char) (hc : c ∈ w)
    (hd : c.isDigit = false) (hm : c ≠ '-') (n : Int) : ¬ w <:+: strInt n := by
  intro hinf
  rcases strInt_chars n c (hinf.subset hc) with h | h
  · rw [hd] at h; exact Bool.false_ne_true h
  · exact hm h

/-- C1: for the default Ruleset, `fizzbuzz n` contains `"Fizz"` iff `3 ∣ n`
and `"Buzz"` iff `5 ∣ n`; when both divide, the labels are concatenated in
ruleset order giving `"FizzBuzz"`, and when neither divides the result is the
decimal string of `n`. -/
theorem fizzbuzz_default_correct (n : Int) :
    (['F','i','z','z'] <:+: fizzbuzz n none ↔ n % 3 = 0)
    ∧ (['B','u','z','z'] <:+: fizzbuzz n none ↔ n % 5 = 0)
    ∧ (n % 3 = 0 → n % 5 = 0 →
        fizzbuzz n none = ['F','i','z','z'] ++ ['B','u','z','z'])
    ∧ (n % 3 ≠ 0 → n % 5 ≠ 0 → fizzbuzz n none = strInt n) := by
  rw [fizzbuzz_default_closed]
  by_cases h3 : n % 3 = 0 <;> by_cases h5 : n % 5 = 0
  · rw [if_pos h3, if_pos h5]
    exact ⟨iff_of_true (by decide) h3, iff_of_true (by decide) h5,
      fun _ _ => rfl, fun hc _ => absurd h3 hc⟩
  · rw [if_pos h3, if_neg h5]
    exact ⟨iff_of_true (by decide) h3, iff_of_false (by decide) h5,
      fun _ hc => absurd hc h5, fun hc _ => absurd h3 hc⟩
  · rw [if_neg h3, if_pos h5]
    exact ⟨iff_of_false (by decide) h3, iff_of_true (by decide) h5,
      fun hc _ => absurd hc h3, fun _ hc => absurd h5 hc⟩
  · rw [if_neg h3, if_neg h5]
    exact ⟨iff_of_false
        (not_infix_strInt_of_upper _ 'F' (by decide) (by decide) (by decide) n) h3,
      iff_of_false
        (not_infix_strInt_of_upper _ 'B' (by decide) (by decide) (by decide) n) h5,
      fun hc _ => absurd hc h3, fun _ _ => rfl⟩

/-- Witness for C1 at concrete inputs: `n = 15` takes both labels in order,
`n = 7` falls back to the decimal string. -/
theorem fizzbuzz_default_correct_wit :
    fizzbuzz 15 none = ['F','i','z','z'] ++ ['B','u','z','z']
    ∧ fizzbuzz 7 none = strInt 7 :=
  ⟨(fizzbuzz_default_correct 15).2.2.1 (by decide) (by decide),
   (fizzbuzz_default_correct 7).2.2.2 (by decide) (by decide)⟩

/-! The Range Runner (claim C4). -/

/-- C4: `run(start, end, rules)` is exactly `evaluate(i)` mapped over the
inclusive range in ascending order; its length is `end - start + 1` clamped at
zero, it is empty (with no error) whenever `end < start`, its `k`-th element
is `evaluate(start + k)`, and the underlying range holds exactly the integers
between `start` and `end`. -/
theorem run_spec (s e : Int) (rules : Option Ruleset) :
    run s e rules = (intRange s e).map (fun i => fizzbuzz i rules)
    ∧ (run s e rules).length = (e + 1 - s).toNat
    ∧ (e < s → run s e rules = [])
    ∧ (∀ k : Nat, k < (e + 1 - s).toNat →
        (run s e rules)[k]? = some (fizzbuzz (s + (k : Int)) rules))
    ∧ (∀ i : Int, i ∈ intRange s e ↔ (s ≤ i ∧ i ≤ e)) := by
  have hlen : (run s e rules).length = (e + 1 - s).toNat := by
    unfold run intRange
    rw [List.length_map, List.length_map, List.length_range]
  refine ⟨rfl, hlen, ?_, ?_, ?_⟩
  · intro h
    have h0 : (run s e rules).length = 0 := by omega
    exact List.eq_nil_of_length_eq_zero h0
  · intro k hk
    show ((intRange s e).map (fun n => fizzbuzz n rules))[k]? = _
    unfold intRange
    rw [List.getElem?_map, List.getElem?_map, List.getElem?_range hk]
    rfl
  · intro i
    unfold intRange
    rw [List.mem_map]
    constructor
    · rintro ⟨k, hk, rfl⟩
      rw [List.mem_range] at hk
      omega
    · rintro ⟨h1, h2⟩
      refine ⟨(i - s).toNat, ?_, by omega⟩
      rw [List.mem_range]
      omega

/-- Witness for C4: the reversed range `(5, 1)` yields the empty sequence, and
element `2` of `run(1, 5)` is `evaluate(3)`. -/
theorem run_spec_wit :
    run 5 1 none = []
    ∧ (run 1 5 none)[2]? = some (fizzbuzz (1 + ((2 : Nat) : Int)) none) :=
  ⟨(run_spec 5 1 none).2.2.1 (by decide),
   (run_spec 1 5 none).2.2.2.1 2 (by decide)⟩

/-! The statistics aggregator (claims C2 and C3). -/

/-- Round-half-to-even of a rational to an integer (the rounding used by
Python's `round`, modelled over exact rationals). -/
def roundHalfEvenQ (q : ℚ) : ℤ :=
  let f := Int.fdiv q.num (q.den : ℤ)
  let r := q - (f : ℚ)
  if r < 1 / 2 then f else if (1 / 2 : ℚ) < r then f + 1
  else if f % 2 = 0 then f else f + 1

/-- Python `round(q, 1)` modelled over exact rationals. -/
def pyRound1 (q : ℚ) : ℚ := ((roundHalfEvenQ (q * 10) : ℤ) : ℚ) / 10

structure Stats where
  total : Nat
  numeric : Nat
  replaced : Nat
  replacement_rate : ℚ

/-- Embedding of `stats(start, end, rules)`.  Python raises
`ZeroDivisionError` while computing `replacement_rate` when `total == 0`;
that failure is modelled as `none`. -/
def stats (s e : Int) (rules : Option Ruleset) : Option Stats :=
  if (run s e rules).length = 0 then none
  else some ⟨(run s e rules).length,
    (run s e rules).countP pyIsDigit,
    (run s e rules).length - (run s e rules).countP pyIsDigit,
    pyRound1 ((((run s e rules).length - (run s e rules).countP pyIsDigit : Nat) : ℚ)
      / (((run s e rules).length : Nat) : ℚ) * 100)⟩

/-- C2: for a non-empty range `stats` succeeds and its `replacement_rate` is
`round(replaced / total * 100, 1)` (exact-rational model of the float
computation); for an empty range (`end < start`, so `total == 0`) it fails
with a division error. -/
theorem stats_success_and_empty (s e : Int) (rules : Option Ruleset) :
    (s ≤ e → ∃ st, stats s e rules = some st
        ∧ st.replacement_rate = pyRound1 ((st.replaced : ℚ) / (st.total : ℚ) * 100))
    ∧ (e < s → stats s e rules = none) := by
  have hlen : (run s e rules).length = (e + 1 - s).toNat := by
    unfold run intRange
    rw [List.length_map, List.length_map, List.length_range]
  constructor
  · intro h
    have hne : ¬ (run s e rules).length = 0 := by omega
    exact ⟨_, by rw [stats]; exact if_neg hne, rfl⟩
  · intro h
    have h0 : (run s e rules).length = 0 := by omega
    rw [stats]
    exact if_pos h0

/-- Witness for C2: `stats(1, 15)` succeeds with the stated rate;
`stats(5, 1)` (empty range) fails. -/
theorem stats_success_and_empty_wit :
    (∃ st, stats 1 15 none = some st
        ∧ st.replacement_rate = pyRound1 ((st.replaced : ℚ) / (st.total : ℚ) * 100))
    ∧ stats 5 1 none = none :=
  ⟨(stats_success_and_empty 1 15 none).1 (by decide),
   (stats_success_and_empty 5 1 none).2 (by decide)⟩

/-- C3 (amended): on a non-empty range, `numeric` counts the results that are
nonempty all-digit strings (Python `str.isdigit`), `replaced` counts the
rest, and `total = numeric + replaced` is the range length.  (The original
claim, `numeric` counts results equal to `str(i)`, fails on negative ranges:
see the counterexample.) -/
theorem stats_fields (s e : Int) (rules : Option Ruleset) (h : s ≤ e) :
    ∃ st, stats s e rules = some st
      ∧ st.total = (run s e rules).length
      ∧ st.total = (e + 1 - s).toNat
      ∧ st.numeric = ((run s e rules).filter pyIsDigit).length
      ∧ st.replaced = st.total - st.numeric
      ∧ st.numeric + st.replaced = st.total := by
  have hlen : (run s e rules).length = (e + 1 - s).toNat := by
    unfold run intRange
    rw [List.length_map, List.length_map, List.length_range]
  have hne : ¬ (run s e rules).length = 0 := by omega
  have hcp : (run s e rules).countP pyIsDigit ≤ (run s e rules).length :=
    List.countP_le_length _
  exact ⟨_, by rw [stats]; exact if_neg hne, rfl, hlen,
    List.countP_eq_length_filter _ _, rfl, by
      show (run s e rules).countP pyIsDigit
          + ((run s e rules).length - (run s e rules).countP pyIsDigit)
          = (run s e rules).length
      omega⟩

/-- Witness for C3's amended statement at the classic range `1..15`. -/
theorem stats_fields_wit :
    ∃ st, stats 1 15 none = some st
      ∧ st.total = (run 1 15 none).length
      ∧ st.total = ((15 : Int) + 1 - 1).toNat
      ∧ st.numeric = ((run 1 15 none).filter pyIsDigit).length
      ∧ st.replaced = st.total - st.numeric
      ∧ st.numeric + st.replaced = st.total :=
  stats_fields 1 15 none (by decide)

/-- C3 counterexample: on the range `-1..-1` the sole result is `"-1"`, which
equals `str(-1)` (so the claim predicts `numeric = 1`), yet the code's
`isdigit` test rejects it and `stats` reports `numeric = 0`. -/
theorem stats_numeric_negative_cex :
    (stats (-1) (-1) none).map Stats.numeric = some 0
    ∧ ((intRange (-1) (-1)).filter (fun i => fizzbuzz i none == strInt i)).length = 1
    ∧ (0 : Nat) ≠ 1 :=
  ⟨by decide, by decide, by decide⟩

/-! The rule parser (claims C5 and C9). -/

/-- Python `s.split(":", 1)`: `some (before, after)` splits at the first
colon; `none` when there is no colon (so `len(parts) != 2`). -/
def splitColonOnce : Str → Option (Str × Str)
  | [] => none
  | c :: rest =>
    if c = ':' then some ([], rest)
    else (splitColonOnce rest).map (fun p => (c :: p.1, p.2))

/-- The ASCII whitespace stripped by Python `int(str)`. -/
def isPySpace (c : Char) : Bool :=
  c = ' ' || c = '\t' || c = '\n' || c = '\r' || c = '\x0b' || c = '\x0c'

/-- Python `str.strip()` of the whitespace accepted by `int`. -/
def pyStrip (s : Str) : Str :=
  ((s.dropWhile isPySpace).reverse.dropWhile isPySpace).reverse

def digitVal (c : Char) : Nat := c.toNat - 48

/-- After an initial digit: the remaining digit characters of a Python integer
literal, where a single underscore may separate two digits. -/
def pudAux : Str → Nat → Option Nat
  | [], acc => some acc
  | c :: rest, acc =>
    if c = '_' then
      match rest with
      | [] => none
      | c2 :: rest2 =>
        if c2.isDigit then pudAux rest2 (acc * 10 + digitVal c2) else none
    else if c.isDigit then pudAux rest (acc * 10 + digitVal c) else none

/-- The digit part of a Python integer literal: nonempty digits, with single
underscores allowed between digits. -/
def parseDigitsU (s : Str) : Option Nat :=
  match s with
  | [] => none
  | c :: rest => if c.isDigit then pudAux rest (digitVal c) else none

/-- Python `int(s)` on a string (ASCII model): strip whitespace, optional
single sign, then digits with underscores between them. -/
def pyIntParse (s : Str) : Option Int :=
  match pyStrip s with
  | [] => none
  | c :: rest =>
    if c = '+' then (parseDigitsU rest).map (fun n => (n : Int))
    else if c = '-' then (parseDigitsU rest).map (fun n => -(n : Int))
    else (parseDigitsU (c :: rest)).map (fun n => (n : Int))

/-- The single error kind raised for malformed `--rule` arguments, with its
three causes. -/
inductive FormatError where
  | missingSeparator
  | nonIntegerDivisor
  | nonPositiveDivisor
deriving DecidableEq

/-- Embedding of `parse_rule(s)`. -/
def parse_rule (s : Str) : Except FormatError (Int × Str) :=
  match splitColonOnce s with
  | none => .error .missingSeparator
  | some (pre, post) =>
    match pyIntParse pre with
    | none => .error .nonIntegerDivisor
    | some d => if d ≤ 0 then .error .nonPositiveDivisor else .ok (d, post)

theorem splitColonOnce_of_not_mem (s : Str) (h : ':' ∉ s) :
    splitColonOnce s = none := by
  induction s with
  | nil => rfl
  | cons c rest ih =>
    unfold splitColonOnce
    rw [if_neg (by intro hc; exact h (hc ▸ List.mem_cons_self c rest))]
    rw [ih (fun hm => h (List.mem_cons_of_mem c hm))]
    rfl

theorem splitColonOnce_append (pre post : Str) (h : ':' ∉ pre) :
    splitColonOnce (pre ++ ':' :: post) = some (pre, post) := by
  induction pre with
  | nil =>
    show splitColonOnce (':' :: post) = _
    unfold splitColonOnce
    rw [if_pos rfl]
  | cons c rest ih =>
    show splitColonOnce (c :: (rest ++ ':' :: post)) = _
    unfold splitColonOnce
    rw [if_neg (by intro hc; exact h (hc ▸ List.mem_cons_self c rest))]
    rw [ih (fun hm => h (List.mem_cons_of_mem c hm))]
    rfl

theorem exists_colon_split (s : Str) (h : ':' ∈ s) :
    ∃ pre post, s = pre ++ ':' :: post ∧ ':' ∉ pre := by
  induction s with
  | nil => exact absurd h (List.not_mem_nil ':')
  | cons c rest ih =>
    by_cases hc : c = ':'
    · exact ⟨[], rest, by rw [hc]; rfl, List.not_mem_nil ':'⟩
    · rcases ih (by rcases List.mem_cons.mp h with h1 | h2
                    · exact absurd h1.symm hc
                    · exact h2) with ⟨pre, post, heq, hpre⟩
      refine ⟨c :: pre, post, by rw [heq]; rfl, ?_⟩
      intro hm
      rcases List.mem_cons.mp hm with h1 | h2
      · exact hc h1.symm
      · exact hpre h2

theorem parse_rule_split (pre post : Str) (h : ':' ∉ pre) :
    parse_rule (pre ++ ':' :: post) =
      match pyIntParse pre with
      | none => .error .nonIntegerDivisor
      | some d => if d ≤ 0 then .error .nonPositiveDivisor else .ok (d, post) := by
  unfold parse_rule
  rw [splitColonOnce_append pre post h]

/-- C5: `parse_rule` fails with `FormatError` exactly when the text has no
colon, the part before the first colon is not a valid integer, or the parsed
divisor is non-positive; otherwise it splits on the first colon only and
returns the divisor together with the verbatim remainder as label. -/
theorem parse_rule_spec (s : Str) :
    ((':' ∉ s) → parse_rule s = .error .missingSeparator)
    ∧ ((':' ∈ s) → ∃ pre post, s = pre ++ ':' :: post ∧ ':' ∉ pre)
    ∧ (∀ pre post, s = pre ++ ':' :: post → ':' ∉ pre →
        (pyIntParse pre = none → parse_rule s = .error .nonIntegerDivisor)
        ∧ (∀ d : Int, pyIntParse pre = some d → d ≤ 0 →
            parse_rule s = .error .nonPositiveDivisor)
        ∧ (∀ d : Int, pyIntParse pre = some d → 0 < d →
            parse_rule s = .ok (d, post))) := by
  refine ⟨?_, exists_colon_split s, ?_⟩
  · intro h
    unfold parse_rule
    rw [splitColonOnce_of_not_mem s h]
  · rintro pre post rfl hpre
    refine ⟨?_, ?_, ?_⟩
    · intro hnone
      rw [parse_rule_split pre post hpre, hnone]
    · intro d hd hle
      rw [parse_rule_split pre post hpre, hd]
      exact if_pos hle
    · intro d hd hpos
      rw [parse_rule_split pre post hpre, hd]
      exact if_neg (by omega)

/-- Witness for C5: the three failure causes and a success, at concrete
inputs; the label is taken verbatim after the first colon. -/
theorem parse_rule_spec_wit :
    parse_rule ['b','a','d'] = .error .missingSeparator
    ∧ parse_rule ['a',':','F'] = .error .nonIntegerDivisor
    ∧ parse_rule ['0',':','Z'] = .error .nonPositiveDivisor
    ∧ parse_rule ['7',':','W','o','o','f'] = .ok (7, ['W','o','o','f']) :=
  ⟨(parse_rule_spec ['b','a','d']).1 (by decide),
   ((parse_rule_spec ['a',':','F']).2.2 ['a'] ['F'] rfl (by decide)).1 (by decide),
   (((parse_rule_spec ['0',':','Z']).2.2 ['0'] ['Z'] rfl (by decide)).2.1 0
     (by decide) (by decide)),
   (((parse_rule_spec ['7',':','W','o','o','f']).2.2 ['7'] ['W','o','o','f']
     rfl (by decide)).2.2 7 (by decide) (by decide))⟩

/-! Round-trip of `parse_rule` with `str` (claim C9). -/

theorem digit_ne (c x : Char) (h : c.isDigit = true) (hx : x.isDigit = false) :
    c ≠ x := by
  intro hcx
  rw [hcx, hx] at h
  exact Bool.false_ne_true h

/-- The value denoted by a digit string, most significant digit first. -/
def digitsToNat (l : Str) : Nat := l.foldl (fun a c => a * 10 + digitVal c) 0

theorem pudAux_digits (l : Str) (h : ∀ c ∈ l, c.isDigit = true) :
    ∀ acc, pudAux l acc = some (l.foldl (fun a c => a * 10 + digitVal c) acc) := by
  induction l with
  | nil => intro acc; rfl
  | cons c rest ih =>
    intro acc
    have hc : c.isDigit = true := h c (List.mem_cons_self c rest)
    unfold pudAux
    rw [if_neg (digit_ne c '_' hc (by decide)), if_pos hc]
    exact ih (fun x hx => h x (List.mem_cons_of_mem c hx)) _

theorem parseDigitsU_digits (l : Str) (hne : l ≠ [])
    (h : ∀ c ∈ l, c.isDigit = true) : parseDigitsU l = some (digitsToNat l) := by
  obtain ⟨c, t, rfl⟩ := List.exists_cons_of_ne_nil hne
  have hc : c.isDigit = true := h c (List.mem_cons_self c t)
  show (if c.isDigit = true then pudAux t (digitVal c) else none) = _
  rw [if_pos hc, pudAux_digits t (fun x hx => h x (List.mem_cons_of_mem c hx))]
  show _ = some (List.foldl _ (0 * 10 + digitVal c) t)
  rw [Nat.zero_mul, Nat.zero_add]

theorem digitVal_char (m : Nat) (h : m < 10) :
    digitVal (Char.ofNat (48 + m)) = m := by
  interval_cases m <;> decide

theorem natDigits_toNat (n : Nat) : digitsToNat (natDigits n) = n := by
  induction n using Nat.strong_induction_on with
  | _ n ih =>
    rw [natDigits_eq]
    by_cases h : n < 10
    · rw [if_pos h]
      show 0 * 10 + digitVal (Char.ofNat (48 + n)) = n
      rw [digitVal_char n h, Nat.zero_mul, Nat.zero_add]
    · rw [if_neg h]
      unfold digitsToNat
      rw [List.foldl_append]
      show digitsToNat (natDigits (n / 10)) * 10 + digitVal (Char.ofNat (48 + n % 10)) = n
      rw [ih (n / 10) (Nat.div_lt_self (by omega) (by omega)),
        digitVal_char (n % 10) (Nat.mod_lt _ (by omega))]
      omega

theorem isPySpace_eq_false_of_isDigit (c : Char) (h : c.isDigit = true) :
    isPySpace c = false := by
  by_contra hc
  rw [Bool.not_eq_false] at hc
  unfold isPySpace at hc
  simp only [Bool.or_eq_true, decide_eq_true_eq] at hc
  rcases hc with ((((rfl | rfl) | rfl) | rfl) | rfl) | rfl <;>
    exact absurd h (by decide)

theorem dropWhile_isPySpace_of_digits (l : Str)
    (h : ∀ c ∈ l, c.isDigit = true) : l.dropWhile isPySpace = l := by
  cases l with
  | nil => rfl
  | cons c rest =>
    rw [List.dropWhile_cons,
      isPySpace_eq_false_of_isDigit c (h c (List.mem_cons_self c rest))]
    rw [if_neg (by exact fun hf => Bool.false_ne_true hf)]

theorem pyStrip_digits (l : Str) (h : ∀ c ∈ l, c.isDigit = true) :
    pyStrip l = l := by
  unfold pyStrip
  rw [dropWhile_isPySpace_of_digits l h,
    dropWhile_isPySpace_of_digits l.reverse
      (fun c hc => h c (List.mem_reverse.mp hc)),
    List.reverse_reverse]

theorem pyIntParse_eq (s : Str) (c : Char) (t : Str) (h : pyStrip s = c :: t) :
    pyIntParse s =
      if c = '+' then (parseDigitsU t).map (fun n => (n : Int))
      else if c = '-' then (parseDigitsU t).map (fun n => -(n : Int))
      else (parseDigitsU (c :: t)).map (fun n => (n : Int)) := by
  unfold pyIntParse
  rw [h]

theorem pyIntParse_strInt (d : Int) (hd : 0 ≤ d) :
    pyIntParse (strInt d) = some d := by
  have hnn : ¬ d < 0 := by omega
  have hdg : ∀ c ∈ strInt d, c.isDigit = true := by
    unfold strInt
    rw [if_neg hnn]
    exact natDigits_all_digit _
  have hne : strInt d ≠ [] := strInt_ne_nil d
  obtain ⟨c, t, hct⟩ := List.exists_cons_of_ne_nil hne
  have hcdig : c.isDigit = true := hdg c (hct ▸ List.mem_cons_self c t)
  have hval : digitsToNat (strInt d) = d.toNat := by
    unfold strInt
    rw [if_neg hnn]
    exact natDigits_toNat d.toNat
  rw [pyIntParse_eq (strInt d) c t (by rw [pyStrip_digits _ hdg, hct]),
    if_neg (digit_ne c '+' hcdig (by decide)),
    if_neg (digit_ne c '-' hcdig (by decide)),
    ← hct, parseDigitsU_digits (strInt d) hne hdg, hval]
  show some ((d.toNat : Nat) : Int) = some d
  rw [Int.toNat_of_nonneg hd]

/-- C9: for every positive divisor `d` and every label (colons and the empty
label included), `parse_rule(str(d) + ":" + label)` succeeds and returns
exactly `(d, label)`. -/
theorem parse_rule_roundtrip (d : Int) (hd : 0 < d) (label : Str) :
    parse_rule (strInt d ++ ':' :: label) = .ok (d, label) := by
  have hdg : ∀ c ∈ strInt d, c.isDigit = true := by
    unfold strInt
    rw [if_neg (by omega : ¬ d < 0)]
    exact natDigits_all_digit _
  have hcol : ':' ∉ strInt d := fun hm => absurd (hdg ':' hm) (by decide)
  rw [parse_rule_split (strInt d) label hcol, pyIntParse_strInt d (by omega)]
  exact if_neg (by omega)

/-- Witness for C9 at `d = 12` and the label `"a:b"`, which itself contains a
colon. -/
theorem parse_rule_roundtrip_wit :
    parse_rule (strInt 12 ++ ':' :: ['a',':','b']) = .ok (12, ['a',':','b']) :=
  parse_rule_roundtrip 12 (by decide) ['a',':','b']

/-! The histogram aggregator (claims C6 and C8). -/

/-- The histogram key of one result: the sentinel `"(number)"` for a pure
numeral, otherwise the result itself. -/
def keyOf (r : Str) : Str :=
  if pyIsDigit r then ['(','n','u','m','b','e','r',')'] else r

/-- One step of the counting loop: `counts[key] = counts.get(key, 0) + 1` on
an insertion-ordered association list. -/
def bump (m : List (Str × Nat)) (k : Str) : List (Str × Nat) :=
  match m with
  | [] => [(k, 1)]
  | p :: rest => if p.1 = k then (p.1, p.2 + 1) :: rest else p :: bump rest k

/-- The counting pass of `histogram`, in encounter order. -/
def countsOf (ks : List Str) : List (Str × Nat) := ks.foldl bump []

def lookupKey (k : Str) : List (Str × Nat) → Option Nat
  | [] => none
  | p :: rest => if p.1 = k then some p.2 else lookupKey k rest

def NodupKeys (m : List (Str × Nat)) : Prop := (m.map Prod.fst).Nodup

theorem bump_lookup_self (m : List (Str × Nat)) (k : Str) :
    lookupKey k (bump m k) = some ((lookupKey k m).getD 0 + 1) := by
  induction m with
  | nil => simp [bump, lookupKey]
  | cons p rest ih =>
    by_cases hp : p.1 = k
    · simp [bump, lookupKey, hp]
    · simp [bump, lookupKey, hp, ih]

theorem bump_lookup_other (m : List (Str × Nat)) (k k' : Str) (h : k' ≠ k) :
    lookupKey k' (bump m k) = lookupKey k' m := by
  induction m with
  | nil => simp [bump, lookupKey, Ne.symm h]
  | cons p rest ih =>
    by_cases hp : p.1 = k
    · simp [bump, lookupKey, hp, Ne.symm h, ih]
    · simp [bump, lookupKey, hp, ih]

theorem lookupKey_eq_none (m : List (Str × Nat)) (k : Str) :
    lookupKey k m = none ↔ k ∉ m.map Prod.fst := by
  induction m with
  | nil => simp [lookupKey]
  | cons p rest ih =>
    by_cases hp : p.1 = k
    · simp [lookupKey, hp]
    · simp only [lookupKey, hp, if_false, List.map_cons, List.mem_cons, ih]
      constructor
      · rintro hn (h1 | h2)
        · exact hp h1.symm
        · exact hn h2
      · intro hn
        exact fun hm => hn (Or.inr hm)

theorem bump_keys (m : List (Str × Nat)) (k : Str) :
    (bump m k).map Prod.fst =
      if k ∈ m.map Prod.fst then m.map Prod.fst else m.map Prod.fst ++ [k] := by
  induction m with
  | nil => simp [bump]
  | cons p rest ih =>
    by_cases hp : p.1 = k
    · rw [if_pos (by simp [hp])]
      simp [bump, hp]
    · simp only [bump, hp, if_false, List.map_cons, ih]
      by_cases hm : k ∈ rest.map Prod.fst
      · rw [if_pos hm, if_pos (List.mem_cons_of_mem p.1 hm)]
      · rw [if_neg hm, if_neg (by
          intro hx
          rcases List.mem_cons.mp hx with h1 | h2
          · exact hp h1.symm
          · exact hm h2)]
        rfl

theorem bump_nodupKeys (m : List (Str × Nat)) (k : Str) (h : NodupKeys m) :
    NodupKeys (bump m k) := by
  unfold NodupKeys
  rw [bump_keys]
  by_cases hm : k ∈ m.map Prod.fst
  · rw [if_pos hm]
    exact h
  · rw [if_neg hm]
    rw [List.nodup_append]
    exact ⟨h, List.nodup_singleton k, by simpa using hm⟩

theorem foldl_bump_lookup (ks : List Str) : ∀ (m : List (Str × Nat)) (k : Str),
    lookupKey k (ks.foldl bump m) =
      if k ∈ ks then some ((lookupKey k m).getD 0 + ks.count k)
      else lookupKey k m := by
  induction ks with
  | nil => intro m k; simp
  | cons a t ih =>
    intro m k
    show lookupKey k (t.foldl bump (bump m a)) = _
    rw [ih (bump m a) k]
    by_cases hk : k = a
    · subst hk
      rw [bump_lookup_self, if_pos (List.mem_cons_self k t)]
      by_cases hm : k ∈ t
      · rw [if_pos hm]
        have hc : (k :: t).count k = t.count k + 1 := by
          rw [List.count_cons]
          simp
        rw [hc, Option.getD_some]
        exact congrArg some (by omega)
      · rw [if_neg hm]
        have hc : (k :: t).count k = 1 := by
          rw [List.count_cons]
          simp [List.count_eq_zero.mpr hm]
        rw [hc]
    · rw [bump_lookup_other m a k hk]
      have hmem : (k ∈ a :: t) ↔ k ∈ t := by
        rw [List.mem_cons]
        constructor
        · rintro (h1 | h2)
          · exact absurd h1 hk
          · exact h2
        · exact Or.inr
      have hc : (a :: t).count k = t.count k := by
        rw [List.count_cons]
        simp [Ne.symm hk]
      by_cases hm : k ∈ t
      · rw [if_pos hm, if_pos (hmem.mpr hm), hc]
      · rw [if_neg hm, if_neg (fun hx => hm (hmem.mp hx))]

theorem foldl_bump_nodupKeys (ks : List Str) : ∀ m : List (Str × Nat),
    NodupKeys m → NodupKeys (ks.foldl bump m) := by
  induction ks with
  | nil => intro m h; exact h
  | cons a t ih =>
    intro m h
    exact ih (bump m a) (bump_nodupKeys m a h)

theorem countsOf_lookup (ks : List Str) (k : Str) :
    lookupKey k (countsOf ks) =
      if k ∈ ks then some (ks.count k) else none := by
  unfold countsOf
  rw [foldl_bump_lookup ks [] k]
  simp [lookupKey]

theorem countsOf_nodupKeys (ks : List Str) : NodupKeys (countsOf ks) :=
  foldl_bump_nodupKeys ks [] List.nodup_nil

theorem mem_iff_lookupKey (m : List (Str × Nat)) (k : Str) (v : Nat)
    (h : NodupKeys m) : (k, v) ∈ m ↔ lookupKey k m = some v := by
  induction m with
  | nil => simp [lookupKey]
  | cons p rest ih =>
    have hnd : NodupKeys rest := (List.nodup_cons.mp h).2
    have hhd : p.1 ∉ rest.map Prod.fst := (List.nodup_cons.mp h).1
    by_cases hp : p.1 = k
    · simp only [lookupKey, hp, if_true, List.mem_cons]
      constructor
      · rintro (h1 | h2)
        · rw [← h1]
        · exact absurd (hp ▸ List.mem_map.mpr ⟨(k, v), h2, rfl⟩) hhd
      · intro hs
        left
        have hv : v = p.2 := (Option.some.injEq _ _).mp hs.symm
        rw [hv, ← hp]
    · simp only [lookupKey, hp, if_false, List.mem_cons, ih hnd]
      constructor
      · rintro (h1 | h2)
        · exact absurd (congrArg Prod.fst h1.symm) hp
        · exact h2
      · exact Or.inr

theorem countsOf_mem_iff (ks : List Str) (k : Str) (v : Nat) :
    (k, v) ∈ countsOf ks ↔ (k ∈ ks ∧ v = ks.count k) := by
  rw [mem_iff_lookupKey _ _ _ (countsOf_nodupKeys ks), countsOf_lookup]
  by_cases hm : k ∈ ks
  · rw [if_pos hm]
    constructor
    · intro hs
      exact ⟨hm, ((Option.some.injEq _ _).mp hs).symm⟩
    · rintro ⟨_, rfl⟩
      rfl
  · rw [if_neg hm]
    constructor
    · intro hs
      exact absurd hs (by simp)
    · rintro ⟨h1, _⟩
      exact absurd h1 hm

/-- Insert an entry into a list sorted by descending count, before the first
entry of equal or smaller count (so an element inserted from the left stays
before its equals: stability of Python's stable `sorted`). -/
def insertDesc (p : Str × Nat) : List (Str × Nat) → List (Str × Nat)
  | [] => [p]
  | q :: rest => if p.2 < q.2 then q :: insertDesc p rest else p :: q :: rest

/-- Stable sort by descending count, modelling
`sorted(counts.items(), key=lambda x: -x[1])`. -/
def sortDesc : List (Str × Nat) → List (Str × Nat)
  | [] => []
  | p :: rest => insertDesc p (sortDesc rest)

/-- Embedding of `histogram(start, end, rules)`: count keys in encounter
order, then sort entries by descending count. -/
def histogram (s e : Int) (rules : Option Ruleset) : List (Str × Nat) :=
  sortDesc (countsOf ((run s e rules).map keyOf))

theorem insertDesc_perm (p : Str × Nat) (l : List (Str × Nat)) :
    (insertDesc p l).Perm (p :: l) := by
  induction l with
  | nil => exact List.Perm.refl _
  | cons q rest ih =>
    show (if p.2 < q.2 then q :: insertDesc p rest else p :: q :: rest).Perm _
    by_cases hq : p.2 < q.2
    · rw [if_pos hq]
      exact (ih.cons q).trans (List.Perm.swap p q rest)
    · rw [if_neg hq]

theorem sortDesc_perm (l : List (Str × Nat)) : (sortDesc l).Perm l := by
  induction l with
  | nil => exact List.Perm.refl _
  | cons p rest ih =>
    exact (insertDesc_perm p (sortDesc rest)).trans (ih.cons p)

theorem insertDesc_pairwise (p : Str × Nat) (l : List (Str × Nat))
    (h : l.Pairwise (fun a b => b.2 ≤ a.2)) :
    (insertDesc p l).Pairwise (fun a b => b.2 ≤ a.2) := by
  induction l with
  | nil => simp [insertDesc]
  | cons q rest ih =>
    rcases List.pairwise_cons.mp h with ⟨hq, hrest⟩
    show (if p.2 < q.2 then q :: insertDesc p rest else p :: q :: rest).Pairwise _
    by_cases hlt : p.2 < q.2
    · rw [if_pos hlt]
      refine List.pairwise_cons.mpr ⟨?_, ih hrest⟩
      intro b hb
      rcases List.mem_cons.mp ((insertDesc_perm p rest).mem_iff.mp hb) with h1 | h2
      · rw [h1]; omega
      · exact hq b h2
    · rw [if_neg hlt]
      refine List.pairwise_cons.mpr ⟨?_, h⟩
      intro b hb
      rcases List.mem_cons.mp hb with h1 | h2
      · rw [h1]; omega
      · have := hq b h2
        omega

theorem sortDesc_pairwise (l : List (Str × Nat)) :
    (sortDesc l).Pairwise (fun a b => b.2 ≤ a.2) := by
  induction l with
  | nil => exact List.Pairwise.nil
  | cons p rest ih => exact insertDesc_pairwise p (sortDesc rest) ih

theorem insertDesc_filter (p : Str × Nat) (l : List (Str × Nat)) (c : Nat) :
    (insertDesc p l).filter (fun x => x.2 == c) =
      if p.2 = c then p :: l.filter (fun x => x.2 == c)
      else l.filter (fun x => x.2 == c) := by
  induction l with
  | nil =>
    show (p :: []).filter _ = _
    by_cases hpc : p.2 = c <;> simp [List.filter_cons, hpc]
  | cons q rest ih =>
    show (if p.2 < q.2 then q :: insertDesc p rest else p :: q :: rest).filter _ = _
    by_cases hlt : p.2 < q.2
    · rw [if_pos hlt, List.filter_cons, ih]
      by_cases hpc : p.2 = c
      · have hqc : (q.2 == c) = false := by
          simp only [beq_eq_false_iff_ne]
          omega
        simp [hqc, hpc, List.filter_cons]
      · by_cases hqc : q.2 = c <;> simp [hpc, hqc, List.filter_cons]
    · rw [if_neg hlt]
      by_cases hpc : p.2 = c <;> simp [hpc, List.filter_cons]

theorem sortDesc_filter (l : List (Str × Nat)) (c : Nat) :
    (sortDesc l).filter (fun x => x.2 == c) = l.filter (fun x => x.2 == c) := by
  induction l with
  | nil => rfl
  | cons p rest ih =>
    show (insertDesc p (sortDesc rest)).filter _ = _
    rw [insertDesc_filter, List.filter_cons]
    by_cases hpc : p.2 = c
    · rw [if_pos hpc, if_pos (by simpa using hpc), ih]
    · rw [if_neg hpc, if_neg (by simpa using hpc), ih]

/-- C6: `histogram` maps each result of the run to the sentinel `"(number)"`
when it is a pure numeral and to the result itself otherwise; each key's
value is its occurrence count; the entries are sorted by descending count;
and ties keep the encounter order of the counting pass (the filter of the
output at any fixed count equals that of the counting pass). -/
theorem histogram_spec (s e : Int) (rules : Option Ruleset) :
    (∀ k v, (k, v) ∈ histogram s e rules ↔
        (k ∈ (run s e rules).map keyOf ∧ v = ((run s e rules).map keyOf).count k))
    ∧ (histogram s e rules).Pairwise (fun a b => b.2 ≤ a.2)
    ∧ (∀ c, (histogram s e rules).filter (fun x => x.2 == c)
        = (countsOf ((run s e rules).map keyOf)).filter (fun x => x.2 == c)) := by
  refine ⟨?_, sortDesc_pairwise _, fun c => sortDesc_filter _ c⟩
  intro k v
  rw [show histogram s e rules = sortDesc (countsOf ((run s e rules).map keyOf)) from rfl]
  rw [(sortDesc_perm _).mem_iff, countsOf_mem_iff]

/-- Witness for C6: in `histogram(1, 15)` the key `"Fizz"` carries count 4,
via the membership characterization. -/
theorem histogram_spec_wit :
    (['F','i','z','z'], 4) ∈ histogram 1 15 none :=
  ((histogram_spec 1 15 none).1 ['F','i','z','z'] 4).mpr (by decide)

theorem bump_sum (m : List (Str × Nat)) (k : Str) :
    ((bump m k).map Prod.snd).sum = ((m.map Prod.snd).sum) + 1 := by
  induction m with
  | nil => simp [bump]
  | cons p rest ih =>
    by_cases hp : p.1 = k
    · simp [bump, hp]
      omega
    · simp only [bump, hp, if_false, List.map_cons, List.sum_cons, ih]
      omega

theorem foldl_bump_sum (ks : List Str) : ∀ m : List (Str × Nat),
    (((ks.foldl bump m).map Prod.snd).sum) = ((m.map Prod.snd).sum) + ks.length := by
  induction ks with
  | nil => intro m; rfl
  | cons a t ih =>
    intro m
    show (((t.foldl bump (bump m a)).map Prod.snd).sum) = _
    rw [ih (bump m a), bump_sum]
    show _ = (m.map Prod.snd).sum + (t.length + 1)
    omega

/-- C8 (conservation): the histogram's counts sum to the length of the run,
which is `end - start + 1` clamped at zero — every result is counted under
exactly one key. -/
theorem histogram_conservation (s e : Int) (rules : Option Ruleset) :
    ((histogram s e rules).map Prod.snd).sum = (run s e rules).length
    ∧ (run s e rules).length = (e + 1 - s).toNat := by
  constructor
  · show ((sortDesc (countsOf ((run s e rules).map keyOf))).map Prod.snd).sum = _
    rw [((sortDesc_perm _).map Prod.snd).sum_eq]
    unfold countsOf
    rw [foldl_bump_sum _ []]
    simp
  · unfold run intRange
    rw [List.length_map, List.length_map, List.length_range]

/-! The chart presenter (claim C7). -/

/-- Python `max(counts.values())` on a non-empty mapping. -/
def maxSnd : List (Str × Int) → Int
  | [] => 0
  | c :: rest => (rest.map Prod.snd).foldl max c.2

/-- Python `max(len(k) for k in counts)` on a non-empty mapping. -/
def maxLabelLen : List (Str × Int) → Nat
  | [] => 0
  | c :: rest => (rest.map (fun p => p.1.length)).foldl max c.1.length

/-- Right-alignment by left-padding with spaces, as in a Python format spec. -/
def padLeft (w : Nat) (s : Str) : Str := List.replicate (w - s.length) ' ' ++ s

/-- One chart line: aligned label, separator, bar, then the count, with
`bar_len = int(count / max_val * width)` modelled as exact truncating
division. -/
def chartLine (maxVal : Int) (maxLabel : Nat) (width : Nat) (p : Str × Int) : Str :=
  padLeft maxLabel p.1 ++ [' ', '|', ' ']
    ++ List.replicate ((p.2 * (width : Int)).tdiv maxVal).toNat '█'
    ++ [' '] ++ strInt p.2

/-- Python `"\n".join(lines)`. -/
def joinNL : List Str → Str
  | [] => []
  | l :: rest => l ++ (rest.map (fun x => '\n' :: x)).flatten

/-- Embedding of `format_chart(counts, width)`.  On a non-empty mapping
whose maximum value is zero Python raises `ZeroDivisionError` at the first
bar computation; that failure is modelled as `none`. -/
def format_chart (counts : List (Str × Int)) (width : Nat) : Option Str :=
  if counts.isEmpty then some []
  else if maxSnd counts = 0 then none
  else some (joinNL (counts.map (chartLine (maxSnd counts) (maxLabelLen counts) width)))

theorem foldl_max_init_le {α : Type} [LinearOrder α] (l : List α) :
    ∀ a : α, a ≤ l.foldl max a := by
  induction l with
  | nil => intro a; exact le_refl a
  | cons x t ih =>
    intro a
    exact le_trans (le_max_left a x) (ih (max a x))

theorem foldl_max_mem_le {α : Type} [LinearOrder α] (l : List α) :
    ∀ (a x : α), x ∈ l → x ≤ l.foldl max a := by
  induction l with
  | nil => intro a x hx; exact absurd hx (List.not_mem_nil x)
  | cons y t ih =>
    intro a x hx
    rcases List.mem_cons.mp hx with h1 | h2
    · rw [h1]
      exact le_trans (le_max_right a y) (foldl_max_init_le t (max a y))
    · exact ih (max a y) x h2

theorem foldl_max_mem {α : Type} [LinearOrder α] (l : List α) :
    ∀ a : α, l.foldl max a = a ∨ l.foldl max a ∈ l := by
  induction l with
  | nil => intro a; exact Or.inl rfl
  | cons x t ih =>
    intro a
    show List.foldl max (max a x) t = a ∨ List.foldl max (max a x) t ∈ x :: t
    rcases ih (max a x) with h1 | h2
    · rw [h1]
      rcases max_choice a x with h3 | h3
      · exact Or.inl h3
      · exact Or.inr (by rw [h3]; exact List.mem_cons_self x t)
    · exact Or.inr (List.mem_cons_of_mem x h2)

theorem maxSnd_mem (counts : List (Str × Int)) (hne : counts ≠ []) :
    maxSnd counts ∈ counts.map Prod.snd := by
  obtain ⟨c, rest, rfl⟩ := List.exists_cons_of_ne_nil hne
  show (rest.map Prod.snd).foldl max c.2 ∈ c.2 :: rest.map Prod.snd
  rcases foldl_max_mem (rest.map Prod.snd) c.2 with h1 | h2
  · rw [h1]
    exact List.mem_cons_self _ _
  · exact List.mem_cons_of_mem _ h2

theorem maxSnd_le (counts : List (Str × Int)) (q : Int)
    (hq : q ∈ counts.map Prod.snd) : q ≤ maxSnd counts := by
  cases counts with
  | nil => exact absurd hq (List.not_mem_nil q)
  | cons c rest =>
    rcases List.mem_cons.mp hq with h1 | h2
    · rw [h1]
      exact foldl_max_init_le _ c.2
    · exact foldl_max_mem_le _ c.2 q h2

theorem maxLabelLen_mem (counts : List (Str × Int)) (hne : counts ≠ []) :
    maxLabelLen counts ∈ counts.map (fun p => p.1.length) := by
  obtain ⟨c, rest, rfl⟩ := List.exists_cons_of_ne_nil hne
  show (rest.map (fun p => p.1.length)).foldl max c.1.length ∈ _
  rcases foldl_max_mem (rest.map (fun p => p.1.length)) c.1.length with h1 | h2
  · rw [h1]
    exact List.mem_cons_self _ _
  · exact List.mem_cons_of_mem _ h2

theorem maxLabelLen_le (counts : List (Str × Int)) (w : Nat)
    (hw : w ∈ counts.map (fun p => p.1.length)) : w ≤ maxLabelLen counts := by
  cases counts with
  | nil => exact absurd hw (List.not_mem_nil w)
  | cons c rest =>
    rcases List.mem_cons.mp hw with h1 | h2
    · rw [h1]
      exact foldl_max_init_le _ c.1.length
    · exact foldl_max_mem_le _ c.1.length w h2

theorem tdiv_eq_fdiv_of_nonneg (a b : Int) (ha : 0 ≤ a) (hb : 0 ≤ b) :
    a.tdiv b = a.fdiv b := by
  rw [Int.tdiv_eq_ediv ha hb, Int.fdiv_eq_ediv a hb]

/-- C7 (amended): the empty mapping renders as the empty string, and on a
non-empty mapping all of whose counts are positive, `format_chart` succeeds
and produces one line per entry in order — label right-aligned to the widest
label, a run of `round_down(count * width / max_count)` block characters,
and the literal count — where `max_count` is the maximum count and the
widest-label width is the maximum label length.  (The original claim, which
allowed any non-empty mapping, fails when the maximum count is zero: see the
counterexample.) -/
theorem format_chart_spec (counts : List (Str × Int)) (width : Nat) :
    format_chart [] width = some []
    ∧ (counts ≠ [] → (∀ p ∈ counts, 0 < p.2) →
        (maxSnd counts ∈ counts.map Prod.snd
          ∧ ∀ q ∈ counts.map Prod.snd, q ≤ maxSnd counts)
        ∧ (maxLabelLen counts ∈ counts.map (fun p => p.1.length)
          ∧ ∀ w ∈ counts.map (fun p => p.1.length), w ≤ maxLabelLen counts)
        ∧ format_chart counts width = some (joinNL (counts.map (fun p =>
            padLeft (maxLabelLen counts) p.1 ++ [' ', '|', ' ']
              ++ List.replicate ((p.2 * (width : Int)).fdiv (maxSnd counts)).toNat '█'
              ++ [' '] ++ strInt p.2)))) := by
  refine ⟨rfl, ?_⟩
  intro hne hpos
  have hmax : 0 < maxSnd counts := by
    rcases List.mem_map.mp (maxSnd_mem counts hne) with ⟨p, hp, hpe⟩
    rw [← hpe]
    exact hpos p hp
  refine ⟨⟨maxSnd_mem counts hne, fun q hq => maxSnd_le counts q hq⟩,
    ⟨maxLabelLen_mem counts hne, fun w hw => maxLabelLen_le counts w hw⟩, ?_⟩
  unfold format_chart
  rw [if_neg (by simpa [List.isEmpty_iff] using hne), if_neg (by omega)]
  refine congrArg some (congrArg joinNL (List.map_congr_left ?_))
  intro p hp
  unfold chartLine
  rw [tdiv_eq_fdiv_of_nonneg (p.2 * (width : Int)) (maxSnd counts)
    (by have := hpos p hp; positivity) (by omega)]

/-- Witness for C7's amended statement: the spec's example mapping
`{"Fizz": 4, "Buzz": 2}` at the default width. -/
theorem format_chart_spec_wit :
    format_chart [(['F','i','z','z'], 4), (['B','u','z','z'], 2)] 40
      = some (joinNL ([(['F','i','z','z'], 4), (['B','u','z','z'], 2)].map (fun p =>
          padLeft (maxLabelLen [(['F','i','z','z'], 4), (['B','u','z','z'], 2)]) p.1
            ++ [' ', '|', ' ']
            ++ List.replicate ((p.2 * ((40 : Nat) : Int)).fdiv
                (maxSnd [(['F','i','z','z'], 4), (['B','u','z','z'], 2)])).toNat '█'
            ++ [' '] ++ strInt p.2))) :=
  ((format_chart_spec [(['F','i','z','z'], 4), (['B','u','z','z'], 2)] 40).2
    (by decide) (by decide)).2.2

/-- C7 counterexample: the mapping `{"a": 0}` is non-empty, yet the code
divides by `max_val == 0` and raises instead of producing a line. -/
theorem format_chart_zero_cex :
    format_chart [(['a'], 0)] 40 = none
    ∧ ([(['a'], 0)] : List (Str × Int)) ≠ [] :=
  ⟨by decide, by decide⟩

/-! Non-empty output of the rule engine (claim C10). -/

/-- C10: for every integer and every ruleset of positive divisors, `fizzbuzz`
returns a non-empty string; in particular when the concatenation of matching
labels is empty it falls back to the decimal string of `n`. -/
theorem fizzbuzz_nonempty (n : Int) (rules : Ruleset)
    (_hpos : ∀ p ∈ rules, 0 < p.1) :
    fizzbuzz n (some rules) ≠ []
    ∧ (((rules.filter (fun r => n % r.1 == 0)).map Prod.snd).flatten = [] →
        fizzbuzz n (some rules) = strInt n) := by
  constructor
  · show (if (((rules.filter (fun r => n % r.1 == 0)).map Prod.snd).flatten).isEmpty
        then strInt n
        else ((rules.filter (fun r => n % r.1 == 0)).map Prod.snd).flatten) ≠ []
    by_cases h : (((rules.filter (fun r => n % r.1 == 0)).map Prod.snd).flatten).isEmpty = true
    · rw [if_pos h]
      exact strInt_ne_nil n
    · rw [if_neg h]
      exact fun hEq => h (List.isEmpty_iff.mpr hEq)
  · intro hflat
    show (if (((rules.filter (fun r => n % r.1 == 0)).map Prod.snd).flatten).isEmpty
        then strInt n
        else ((rules.filter (fun r => n % r.1 == 0)).map Prod.snd).flatten) = strInt n
    rw [if_pos (List.isEmpty_iff.mpr hflat)]

/-- Witness for C10: a ruleset whose sole matching label is empty at `n = 4`
falls back to `str(4)`, which is non-empty. -/
theorem fizzbuzz_nonempty_wit :
    fizzbuzz 4 (some [(2, [])]) ≠ []
    ∧ fizzbuzz 4 (some [(2, [])]) = strInt 4 :=
  ⟨(fizzbuzz_nonempty 4 [(2, [])] (by decide)).1,
   (fizzbuzz_nonempty 4 [(2, [])] (by decide)).2 (by decide)⟩
